import Mathlib

/-!
# Task algorithms (`saxion::algos`, `lib_algos/include/algos.h`)

A shallow embedding of the algorithm layer of the task library and the
verification of its specification.

* A range `[begin, end)` over a `std::vector<task>` is a `List task`; an iterator
  is a signed offset from `begin`.
* In-place algorithms return the range as it stands after the call.
* The standard algorithms the library calls are not part of the source tree.
  Those whose result the C++ standard leaves open (`std::sort`,
  `std::nth_element`, `std::partition`) are taken as parameters bundled with the
  postconditions the standard gives them, so every result holds for every
  conforming standard library; a concrete conforming instance of each is given,
  so the contracts are inhabited and the definitions can be evaluated.  Those
  whose result the standard fixes (`std::find_if`, `std::count_if`,
  `std::copy_if`, `std::copy_n`, `std::transform`, `std::accumulate`,
  `std::minmax_element`) are definitions.
* `int` values and time points are integers.  A cost is the rational value of a
  `double`; costs are compared exactly, and the totals `total_cost` and
  `total_cost_of` add them in IEEE 754 binary64 arithmetic (`double_add`: every
  sum rounded to the nearest double, ties to even), as `std::accumulate` with a
  `double` accumulator does.
-/

namespace saxion

/-! ## Data model -/

/-- Modelled from the spec: `task.h` is not part of the source tree.  The fields are
those the algorithms read and write (`id`, `deadline`, `priority`, `cost`,
`assignees`), with the types of the data model: integer id and priority, a totally
ordered time value, a real cost, and a set of person names. -/
structure task where
  id : Int
  deadline : Int
  priority : Int
  cost : ℚ
  assignees : Finset String
deriving DecidableEq

/-- A value-initialised task, as produced by `std::vector<task>(n)`.  No result below
depends on which value this is. -/
instance : Inhabited task := ⟨⟨0, 0, 0, 0, ∅⟩⟩

/-- How a call ends.  `value` is a normal return.  `error` is an explicitly signalled
error (an exception reaching the caller, or an error result).  `terminated` is a
call to `std::terminate` (an exception escaping a `noexcept` function).
`undefined` is an access outside the range the iterators delimit: the call has no
defined result. -/
inductive Outcome (α : Type) where
  | value (a : α)
  | error
  | terminated
  | undefined
deriving DecidableEq

/-- Sequencing of calls: the first abnormal outcome is the outcome of the whole. -/
def Outcome.bind {α β : Type} : Outcome α → (α → Outcome β) → Outcome β
  | .value a, f => f a
  | .error, _ => .error
  | .terminated, _ => .terminated
  | .undefined, _ => .undefined

/-! ## Contracts of the standard algorithms -/

/-- The requirement the standard puts on a comparator (`[alg.sorting]`): `comp` is
irreflexive and transitive, and so is the induced equivalence
`!comp(a, b) && !comp(b, a)`. -/
structure StrictWeakOrder {α : Type} (comp : α → α → Bool) : Prop where
  irrefl : ∀ a, comp a a = false
  trans : ∀ a b c, comp a b = true → comp b c = true → comp a c = true
  equiv_trans : ∀ a b c, comp a b = false → comp b a = false →
    comp b c = false → comp c b = false → comp a c = false ∧ comp c a = false

/-- The range is sorted with respect to `comp`: for positions `i < j`,
`comp(*j, *i)` is false. -/
def SortedWrt {α : Type} (comp : α → α → Bool) (l : List α) : Prop :=
  l.Pairwise (fun a b => comp b a = false)

/-- The function `std::sort(first, last, comp)`: the range is rearranged (a permutation)
and ends sorted with respect to `comp`.  The order of equivalent elements is not
specified. -/
structure StdSort (α : Type) where
  run : (α → α → Bool) → List α → List α
  perm : ∀ comp l, StrictWeakOrder comp → (run comp l).Perm l
  sorted : ∀ comp l, StrictWeakOrder comp → SortedWrt comp (run comp l)

/-- The function `std::nth_element(first, nth, last, comp)` for `nth` at offset
`n ≤ size`: the range is rearranged; the element at `nth` is the element that
would be there if the whole range were sorted (unless `nth == last`); and no
element at or after `nth` is ordered before an element in front of `nth`. -/
structure StdNthElement (α : Type) where
  run : (α → α → Bool) → List α → Nat → List α
  perm : ∀ comp l n, StrictWeakOrder comp → n ≤ l.length → (run comp l n).Perm l
  nth_sorted : ∀ comp l n, StrictWeakOrder comp → n < l.length →
    ∃ s : List α, s.Perm l ∧ SortedWrt comp s ∧ (run comp l n)[n]? = s[n]?
  split : ∀ comp l n, StrictWeakOrder comp → n ≤ l.length →
    ∀ x ∈ (run comp l n).take n, ∀ y ∈ (run comp l n).drop n, comp y x = false

/-- The function `std::partition(first, last, pred)`: the range is rearranged so that
the elements satisfying `pred` come first; the returned iterator (second
component, an offset within `[0, size]`) is the first position whose element does
not satisfy `pred`. -/
structure StdPartition (α : Type) where
  run : (α → Bool) → List α → List α × Nat
  perm : ∀ p l, (run p l).1.Perm l
  bound : ∀ p l, (run p l).2 ≤ l.length
  front : ∀ p l, ∀ x ∈ (run p l).1.take (run p l).2, p x = true
  back : ∀ p l, ∀ x ∈ (run p l).1.drop (run p l).2, p x = false

/-! ## Iterator and container primitives -/

/-- The expression `*(begin + pos)`: defined only for a position inside the range. -/
def deref {α : Type} (range : List α) (pos : Int) : Outcome α :=
  if 0 ≤ pos then
    match range[pos.toNat]? with
    | some a => .value a
    | none => .undefined
  else .undefined

/-- The call `std::nth_element(begin, begin + n, end, comp)`: it requires `[begin, nth)`
and `[nth, end)` to be valid ranges. -/
def nth_element_call {α : Type} (N : StdNthElement α) (comp : α → α → Bool)
    (range : List α) (n : Int) : Outcome (List α) :=
  if 0 ≤ n ∧ n ≤ range.length then .value (N.run comp range n.toNat) else .undefined

/-- The constructor call `std::vector<task>(n)` with `n` an `int`: `n` is converted to
the unsigned size type, so a negative `n` asks for more than `max_size()` elements
and the constructor throws `std::length_error`; inside a `noexcept` function that
is `std::terminate`.  Otherwise `n` value-initialised elements. -/
def vector_of_size {α : Type} [Inhabited α] (n : Int) : Outcome (List α) :=
  if n < 0 then .terminated else .value (List.replicate n.toNat default)

/-- The call `std::copy_n(first, n, result)`: for `n > 0` reads `n` elements from the
source and writes them over the first `n` elements of the destination; does
nothing for `n ≤ 0`. -/
def copy_n {α : Type} (src : List α) (n : Int) (dst : List α) : Outcome (List α) :=
  if n ≤ 0 then .value dst
  else if n.toNat ≤ src.length ∧ n.toNat ≤ dst.length then
    .value (src.take n.toNat ++ dst.drop n.toNat)
  else .undefined

/-- The call `std::transform(first, last, d_first, f)` into a destination with at least
as many elements as the source. -/
def transform_into {α β : Type} (src : List α) (f : α → β) (dst : List β) : List β :=
  src.map f ++ dst.drop src.length

/-! ## The algorithms -/

/-- Source `extract_tasks_with_deadline_before(begin, end, out, deadline)`: the body
is `return end;`.  Result: the range, the destination container behind `out`, and
the returned position. -/
def extract_tasks_with_deadline_before (range : List task) (out : List task)
    (_deadline : Int) : List task × List task × Nat :=
  (range, out, range.length)

/-- Pairs `<id, priority>` (`using id_prio = std::tuple<int, int>`). -/
abbrev id_prio := Int × Int

/-- The comparator lambda of `list_sorted_by_prio`. -/
def id_prio_before (lhs rhs : id_prio) : Bool :=
  if lhs.2 < rhs.2 then true
  else if lhs.2 = rhs.2 ∧ lhs.1 < rhs.1 then true
  else false

/-- Source `list_sorted_by_prio(begin, end)`. -/
def list_sorted_by_prio (S : StdSort id_prio) (range : List task) : List id_prio :=
  let v : List id_prio := List.replicate range.length default
  let v := transform_into range (fun t => (t.id, t.priority)) v
  S.run id_prio_before v

/-- The comparator lambda of `get_nth_to_complete` and `get_first_n_to_complete`. -/
def completion_before (lhs rhs : task) : Bool :=
  if lhs.deadline < rhs.deadline then true
  else if lhs.deadline = rhs.deadline ∧ lhs.priority < rhs.priority then true
  else false

/-- Source `get_nth_to_complete(begin, end, n)`.  Result: the task referred to and the
range after the call. -/
def get_nth_to_complete (N : StdNthElement task) (range : List task) (n : Int) :
    Outcome (task × List task) :=
  (nth_element_call N completion_before range n).bind fun r =>
    (deref r n).bind fun t => .value (t, r)

/-- Source `get_first_n_to_complete(begin, end, n)`.  Result: the returned vector and
the range after the call. -/
def get_first_n_to_complete (S : StdSort task) (range : List task) (n : Int) :
    Outcome (List task × List task) :=
  (vector_of_size n).bind fun v =>
    let r := S.run completion_before range
    (copy_n r n v).bind fun v => .value (v, r)

/-- Source `cost_burndown(begin, end, obegin)`: the body is empty (the draft is
commented out).  Result: the range and the container behind `obegin`. -/
def cost_burndown (range : List task) (out : List ℚ) : List task × List ℚ :=
  (range, out)

/-- Source `separate_by_deadline(begin, end, deadline)`: `std::partition(...) - 1`.
Result: the range after the call and the returned position. -/
def separate_by_deadline (P : StdPartition task) (range : List task) (deadline : Int) :
    List task × Int :=
  let r := P.run (fun t => decide (t.deadline < deadline)) range
  (r.1, (r.2 : Int) - 1)

/-- Source `estimate_workload(begin, end, person)`: the body is `return -1.0;`. -/
def estimate_workload (_range : List task) (_person : String) : ℚ :=
  -1

/-! ## Further primitives -/

/-- The call `std::find_if(first, last, pred)`: the offset of the first element that
satisfies `pred`, and the offset of `last` (the size of the range) if there is
none. -/
def find_if {α : Type} (pred : α → Bool) (range : List α) : Nat :=
  range.findIdx pred

/-- The call `std::count_if(first, last, pred)`; the result has the signed difference
type of the iterators. -/
def count_if {α : Type} (pred : α → Bool) (range : List α) : Int :=
  (range.countP pred : Int)

/-- The call `std::copy_if(first, last, d_first, pred)`: writes the elements that
satisfy `pred`, in order, over the first elements of the destination; the
destination must have room for them. -/
def copy_if {α : Type} (src : List α) (dst : List α) (pred : α → Bool) : Outcome (List α) :=
  if (src.filter pred).length ≤ dst.length then
    .value (src.filter pred ++ dst.drop (src.filter pred).length)
  else .undefined

/-- The call `std::accumulate(first, last, init, op)`: a left fold. -/
def accumulate {α β : Type} (range : List α) (init : β) (op : β → α → β) : β :=
  range.foldl op init

/-- The call `std::minmax_element(first, last, comp)`: `(first, first)` on an empty
range; otherwise `(m, M)` where `m` is the first position such that no element of
the range is smaller than the element there, and `M` is the last position such
that no element of the range is larger than the element there. -/
def minmax_element {α : Type} (comp : α → α → Bool) (range : List α) : Nat × Nat :=
  (range.findIdx (fun x => range.all (fun y => !comp y x)),
    range.length - 1 - range.reverse.findIdx (fun x => range.all (fun y => !comp x y)))

/-- The values a `double` quotient can take. -/
inductive fdouble where
  | finite (q : ℚ)
  | pos_inf
  | neg_inf
  | nan
deriving DecidableEq

/-- The expression `total / count` for a `double` total and an `int` count: with a
zero count no check is made and the quotient is an infinity, or not-a-number when
the total is zero as well. -/
def double_div (total : ℚ) (count : Int) : fdouble :=
  if count ≠ 0 then .finite (total / count)
  else if total = 0 then .nan
  else if 0 < total then .pos_inf
  else .neg_inf

/-- The number of binary digits of `n` (0 for 0); `fuel` bounds the number of
halvings and `n` itself is always enough. -/
def bit_length : Nat → Nat → Nat
  | 0, _ => 0
  | fuel + 1, n => if n = 0 then 0 else bit_length fuel (n / 2) + 1

/-- The power `2 ^ e` for an integer exponent. -/
def pow2 (e : Int) : ℚ :=
  if 0 ≤ e then ((2 ^ e.toNat : Nat) : ℚ) else 1 / ((2 ^ (-e).toNat : Nat) : ℚ)

/-- For a positive rational `a`, the exponent `e` with `2 ^ e ≤ a < 2 ^ (e + 1)`. -/
def floor_log2 (a : ℚ) : Int :=
  let e0 : Int := (bit_length a.num.natAbs a.num.natAbs : Int) - (bit_length a.den a.den : Int)
  if pow2 e0 ≤ a then e0 else e0 - 1

/-- The integer nearest to a non-negative rational, the even one of the two when it
lies half way. -/
def round_half_even (m : ℚ) : Int :=
  let f := Rat.floor m
  let r := m - f
  if r < 1 / 2 then f
  else if 1 / 2 < r then f + 1
  else if f % 2 = 0 then f
  else f + 1

/-- Rounding of an exact value to IEEE 754 binary64 (`double`), round to nearest, ties
to even: 53 significant bits, smallest exponent `-1022` (below it the spacing
stays `2 ^ (-1074)`), and a rounded magnitude of `2 ^ 1024` or more is an
infinity.  The two zeros are not told apart. -/
def round_to_double (q : ℚ) : fdouble :=
  if q = 0 then .finite 0
  else
    let a := if q < 0 then -q else q
    let e := max (floor_log2 a) (-1022)
    let ulp := pow2 (e - 52)
    let v := (round_half_even (a / ulp) : ℚ) * ulp
    if pow2 1024 ≤ v then (if 0 < q then .pos_inf else .neg_inf)
    else .finite (if 0 < q then v else -v)

/-- The expression `x + y` on `double` values: the exact sum of two finite values,
rounded; infinities absorb finite values, and not-a-number results from a
not-a-number operand or from adding opposite infinities. -/
def double_add : fdouble → fdouble → fdouble
  | .finite a, .finite b => round_to_double (a + b)
  | .nan, _ => .nan
  | _, .nan => .nan
  | .pos_inf, .neg_inf => .nan
  | .neg_inf, .pos_inf => .nan
  | .pos_inf, _ => .pos_inf
  | _, .pos_inf => .pos_inf
  | .neg_inf, _ => .neg_inf
  | _, .neg_inf => .neg_inf

/-! ## The algorithms, continued -/

/-- Source `remove_asignee_from_all(begin, end, person)`: `std::for_each` erasing
`person` from the assignees of every task.  Result: the range after the call. -/
def remove_asignee_from_all (range : List task) (person : String) : List task :=
  range.map fun t => { t with assignees := t.assignees.erase person }

/-- Source `extend_deadlines(begin, end, priority, extension)`: `std::transform` of the
range onto itself.  Result: the range after the call. -/
def extend_deadlines (range : List task) (priority : Int) (extension : Int) : List task :=
  transform_into range
    (fun t => if t.priority = priority then { t with deadline := t.deadline + extension } else t)
    range

/-- Source `add_assignee_to_task(begin, end, id, person)`.  Result: the range after the
call and the returned flag.  The test `t == end` is "no element at offset `t`". -/
def add_assignee_to_task (range : List task) (id : Int) (person : String) :
    List task × Bool :=
  let t := find_if (fun t => decide (t.id = id)) range
  match range[t]? with
  | none => (range, false)
  | some found =>
    if person ∈ found.assignees then (range, false)
    else (range.set t { found with assignees := insert person found.assignees }, true)

/-- Source `get_tasks_with_priority(begin, end, priority)`.  Result: the returned
vector and the range after the call. -/
def get_tasks_with_priority (range : List task) (priority : Int) :
    Outcome (List task × List task) :=
  let lambda := fun (t : task) => decide (t.priority = priority)
  let count := count_if lambda range
  (vector_of_size count).bind fun tasks =>
    (copy_if range tasks lambda).bind fun tasks => .value (tasks, range)

/-- Source `cheapest_and_most_expensive(begin, end)`: both iterators returned by
`std::minmax_element` are dereferenced. -/
def cheapest_and_most_expensive (range : List task) : Outcome (task × task) :=
  let mm := minmax_element (fun (lhs rhs : task) => decide (lhs.cost < rhs.cost)) range
  (deref range mm.1).bind fun min =>
    (deref range mm.2).bind fun max => .value (min, max)

/-- Source `total_cost(begin, end)`: `std::accumulate` from `0.0` with the lambda
`(double current, const task &t)` returning `current + t.cost`, a `double`
addition. -/
def total_cost (range : List task) : fdouble :=
  accumulate range (.finite 0) (fun current t => double_add current (.finite t.cost))

/-- Source `total_cost_of(begin, end, assignee)`: the same accumulation in `double`,
adding only when `count(assignee) > 0`, which on a set is membership. -/
def total_cost_of (range : List task) (assignee : String) : fdouble :=
  accumulate range (.finite 0) (fun current t =>
    if assignee ∈ t.assignees then double_add current (.finite t.cost) else current)

/-- Source `average_cost_of_prio(begin, end, priority)`: the counter the lambda
captures by reference is threaded through the fold next to the running total;
the function then returns `total / count` as it is. -/
def average_cost_of_prio (range : List task) (priority : Int) : Outcome fdouble :=
  let r := accumulate range ((0 : ℚ), (0 : Int)) (fun acc t =>
    if t.priority = priority then (acc.1 + t.cost, acc.2 + 1) else acc)
  .value (double_div r.1 r.2)

/-! ## Specification-side notions -/

/-- The completion-order key of a task. -/
def completion_key (t : task) : Int × Int := (t.deadline, t.priority)

/-- Completion order on keys: deadline ascending, ties broken by priority ascending. -/
def key_le (a b : Int × Int) : Prop := a.1 < b.1 ∨ (a.1 = b.1 ∧ a.2 ≤ b.2)

instance : DecidableRel key_le := fun a b => by unfold key_le; exact inferInstance

/-- The keys of a range sorted in completion order. -/
def completion_keys (range : List task) : List (Int × Int) :=
  (range.map completion_key).insertionSort key_le

/-- A range is in completion order: deadlines non-decreasing, priorities
non-decreasing among equal deadlines. -/
def InCompletionOrder (l : List task) : Prop :=
  l.Pairwise (fun a b => a.deadline ≤ b.deadline ∧ (a.deadline = b.deadline → a.priority ≤ b.priority))

/-- Order on `<id, priority>` pairs: priority ascending, ties broken by id ascending. -/
def id_prio_le (a b : id_prio) : Prop := a.2 < b.2 ∨ (a.2 = b.2 ∧ a.1 ≤ b.1)

/-- The sum of a sequence of costs as a `double` computation: accumulated from `0.0`
in sequence order, every addition rounded. -/
def double_sum (costs : List ℚ) : fdouble :=
  costs.foldl (fun acc c => double_add acc (.finite c)) (.finite 0)

/-- The task with `person` added to its assignees. -/
def with_assignee (t : task) (person : String) : task :=
  { t with assignees := insert person t.assignees }

/-! ## Conforming instances of the standard algorithms -/

/-- Insertion sort, as a stand-in for `std::sort`. -/
def insertion_sort_run {α : Type} (comp : α → α → Bool) (l : List α) : List α :=
  l.insertionSort (fun a b => comp b a = false)

/-- A two-pass stable partition, as a stand-in for `std::partition`. -/
def filter_partition_run {α : Type} (p : α → Bool) (l : List α) : List α × Nat :=
  (l.filter p ++ l.filter (fun x => !p x), (l.filter p).length)

/-- Insertion sort conforms to the contract of `std::sort`. -/
def insertion_sort (α : Type) : StdSort α where
  run := insertion_sort_run
  perm := fun comp l _ => List.perm_insertionSort (fun a b => comp b a = false) l
  sorted := fun comp l h => by
    have hneg : ∀ a b c : α, comp b a = false → comp c b = false → comp c a = false := by
      intro a b c hba hcb
      by_contra hca
      have hca : comp c a = true := by simpa using hca
      have hab : comp a b = false := by
        by_contra hab
        have hab : comp a b = true := by simpa using hab
        have := h.trans c a b hca hab
        simp [hcb] at this
      have hbc : comp b c = false := by
        by_contra hbc
        have hbc : comp b c = true := by simpa using hbc
        have := h.trans b c a hbc hca
        simp [hba] at this
      have := (h.equiv_trans a b c hab hba hbc hcb).2
      simp [hca] at this
    haveI : IsTotal α (fun a b => comp b a = false) := ⟨fun a b => by
      by_contra hcon
      push_neg at hcon
      have h1 : comp b a = true := by simpa using hcon.1
      have h2 : comp a b = true := by simpa using hcon.2
      have := h.trans a b a h2 h1
      simp [h.irrefl a] at this⟩
    haveI : IsTrans α (fun a b => comp b a = false) := ⟨fun a b c => hneg a b c⟩
    exact List.sorted_insertionSort (fun a b => comp b a = false) l

/-- Sorting the whole range conforms to the contract of `std::nth_element`. -/
def sorting_nth_element (α : Type) : StdNthElement α where
  run := fun comp l _ => (insertion_sort α).run comp l
  perm := fun comp l _ h _ => (insertion_sort α).perm comp l h
  nth_sorted := fun comp l _ h _ =>
    ⟨(insertion_sort α).run comp l, (insertion_sort α).perm comp l h,
      (insertion_sort α).sorted comp l h, rfl⟩
  split := fun comp l n h _ x hx y hy => by
    have hs : ((insertion_sort α).run comp l).Pairwise (fun a b => comp b a = false) :=
      (insertion_sort α).sorted comp l h
    rw [← List.take_append_drop n ((insertion_sort α).run comp l)] at hs
    exact (List.pairwise_append.mp hs).2.2 x hx y hy

/-- The two-pass partition conforms to the contract of `std::partition`. -/
def filter_partition (α : Type) : StdPartition α where
  run := filter_partition_run
  perm := fun p l => by
    simpa [filter_partition_run] using List.filter_append_perm p l
  bound := fun p l => List.length_filter_le p l
  front := fun p l x hx => by
    simp only [filter_partition_run, List.take_left] at hx
    simpa using (List.mem_filter.mp hx).2
  back := fun p l x hx => by
    simp only [filter_partition_run, List.drop_left] at hx
    simpa using (List.mem_filter.mp hx).2

/-! ## Example inputs -/

/-- A task with the given id and deadline (priority 1, cost 0, nobody assigned). -/
def task_due (id deadline : Int) : task := ⟨id, deadline, 1, 0, ∅⟩

/-- The example of the comment in `extract_tasks_with_deadline_before`: deadlines
`[6, 3, 7, 4, 5, 1]`, to be split at `5`. -/
def extract_example : List task :=
  [task_due 0 6, task_due 1 3, task_due 2 7, task_due 3 4, task_due 4 5, task_due 5 1]

/-- A task with the given id, deadline and cost (priority 1, nobody assigned). -/
def task_costing (id deadline : Int) (cost : ℚ) : task := ⟨id, deadline, 1, cost, ∅⟩

/-- The example of the comment in `cost_burndown`:
`[{4, 43.0}, {2, 11.0}, {3, 7.0}, {1, 23.0}, {3, 19.0}]`. -/
def burndown_example : List task :=
  [task_costing 0 4 43, task_costing 1 2 11, task_costing 2 3 7, task_costing 3 1 23,
    task_costing 4 3 19]

/-- A task with the given id and assignees (deadline 0, priority 1, cost 0). -/
def task_of (id : Int) (assignees : Finset String) : task := ⟨id, 0, 1, 0, assignees⟩

/-- The example of the comment in `estimate_workload`: eight tasks, "zack" assigned to
tasks 2, 3 and 6. -/
def workload_example : List task :=
  [task_of 0 ∅, task_of 1 {"amy"}, task_of 2 {"zack"}, task_of 3 {"zack", "amy"},
    task_of 4 ∅, task_of 5 {"bob"}, task_of 6 {"zack"}, task_of 7 ∅]

/-- A task with the given id, deadline and priority (cost 0, nobody assigned). -/
def task_at (id deadline priority : Int) : task := ⟨id, deadline, priority, 0, ∅⟩

/-- Four tasks, two of them sharing a deadline. -/
def completion_example : List task :=
  [task_at 0 7 2, task_at 1 3 5, task_at 2 3 1, task_at 3 9 0]

/-- Three tasks, the last two sharing id 2; "bob" is assigned to the second of them
only. -/
def assignee_example : List task :=
  [task_of 1 {"amy"}, task_of 2 ∅, task_of 2 {"bob"}]

/-- Three tasks of equal cost. -/
def tie_example : List task :=
  [task_costing 0 1 5, task_costing 1 2 5, task_costing 2 3 5]

/-- Three tasks of costs `2 ^ 53`, `1` and `1`: `2 ^ 53 + 1` is not a `double`. -/
def rounding_example : List task :=
  [task_costing 0 1 9007199254740992, task_costing 1 2 1, task_costing 2 3 1]

/-! ## Stubbed operations -/

/-- C1: on the example of its own comment (deadlines `[6, 3, 7, 4, 5, 1]`, threshold
`5`) `extract_tasks_with_deadline_before` leaves the range and the destination
as they were and returns the old end, position 6: the destination does not
receive the tasks due before the threshold (ids 1, 3, 5), and the retained front
is not the tasks due on or after it (ids 0, 2, 4). -/
theorem C1_extract_moves_nothing :
    extract_tasks_with_deadline_before extract_example [] 5 = (extract_example, [], 6) ∧
    (extract_example.filter (fun t => decide (t.deadline < 5))).map task.id = [1, 3, 5] ∧
    (extract_example.filter (fun t => decide (5 ≤ t.deadline))).map task.id = [0, 2, 4] ∧
    (extract_tasks_with_deadline_before extract_example [] 5).2.1
      ≠ extract_example.filter (fun t => decide (t.deadline < 5)) ∧
    (extract_tasks_with_deadline_before extract_example [] 5).1.take
        (extract_tasks_with_deadline_before extract_example [] 5).2.2
      ≠ extract_example.filter (fun t => decide (5 ≤ t.deadline)) := by
  refine ⟨rfl, by decide, by decide, ?_, ?_⟩
  · intro h
    have := congrArg List.length h
    revert this
    decide
  · intro h
    have := congrArg List.length h
    revert this
    decide

/-- C2: on the example of its own comment `cost_burndown` writes nothing to the
output, where the comment (and the specification) ask for
`[23, 34, 60, 103]`. -/
theorem C2_cost_burndown_emits_nothing :
    cost_burndown burndown_example [] = (burndown_example, []) ∧
    (cost_burndown burndown_example []).2 ≠ [23, 34, 60, 103] := by
  refine ⟨rfl, ?_⟩
  intro h
  have := congrArg List.length h
  revert this
  decide

/-- C7: on the example of its own comment (eight tasks, "zack" assigned to exactly
three of them) `estimate_workload` returns `-1`, which is not `count / 4` for any
`count` with `0 ≤ count ≤ 4`, and lies outside `[0, 1]`. -/
theorem C7_estimate_workload_returns_minus_one :
    workload_example.length = 8 ∧
    (workload_example.filter (fun t => decide ("zack" ∈ t.assignees))).map task.id = [2, 3, 6] ∧
    estimate_workload workload_example "zack" = -1 ∧
    ¬ (0 ≤ estimate_workload workload_example "zack") ∧
    ¬ ∃ count : Nat, count ≤ workload_example.length / 2 ∧
        estimate_workload workload_example "zack"
          = (count : ℚ) / ((workload_example.length / 2 : Nat) : ℚ) := by
  refine ⟨rfl, by decide, rfl, ?_, ?_⟩
  · norm_num [estimate_workload]
  · rintro ⟨count, _, h⟩
    have h0 : (0 : ℚ) ≤ (count : ℚ) / ((workload_example.length / 2 : Nat) : ℚ) := by positivity
    rw [← h] at h0
    norm_num [estimate_workload] at h0

/-! ## Completion order -/

theorem completion_before_eq_true (a b : task) :
    completion_before a b = true ↔
      a.deadline < b.deadline ∨ (a.deadline = b.deadline ∧ a.priority < b.priority) := by
  unfold completion_before
  by_cases h1 : a.deadline < b.deadline
  · simp [h1]
  · by_cases h2 : a.deadline = b.deadline ∧ a.priority < b.priority
    · simp [h1, h2]
    · simp only [h1, h2, if_false, false_or]
      simp

theorem completion_before_eq_false (a b : task) :
    completion_before b a = false ↔ key_le (completion_key a) (completion_key b) := by
  rw [← Bool.not_eq_true, completion_before_eq_true]
  unfold key_le completion_key
  constructor
  · intro h
    simp only [not_or, not_and, not_lt] at h
    rcases lt_or_eq_of_le h.1 with h1 | h1
    · exact Or.inl h1
    · exact Or.inr ⟨h1, h.2 h1.symm⟩
  · rintro (h | ⟨h1, h2⟩)
    · simp only [not_or, not_and, not_lt]
      exact ⟨h.le, fun h3 => absurd h3 (ne_of_gt h)⟩
    · simp only [not_or, not_and, not_lt]
      exact ⟨h1.le, fun _ => h2⟩

theorem completion_before_strict : StrictWeakOrder completion_before := by
  refine ⟨fun a => ?_, fun a b c hab hbc => ?_, fun a b c h1 h2 h3 h4 => ?_⟩
  · rw [completion_before_eq_false]
    exact Or.inr ⟨rfl, le_refl _⟩
  · rw [completion_before_eq_true] at hab hbc ⊢
    omega
  · simp only [completion_before_eq_false, key_le, completion_key] at h1 h2 h3 h4 ⊢
    constructor <;> omega

instance key_le_total : IsTotal (Int × Int) key_le :=
  ⟨fun a b => by unfold key_le; omega⟩

instance key_le_trans : IsTrans (Int × Int) key_le :=
  ⟨fun a b c => by unfold key_le; omega⟩

instance key_le_antisymm : IsAntisymm (Int × Int) key_le :=
  ⟨fun a b h1 h2 => by
    unfold key_le at h1 h2
    exact Prod.ext (by omega) (by omega)⟩

/-- Every arrangement of the range that is sorted with the library comparator has the
same key sequence, `completion_keys`. -/
theorem keys_of_sorted_perm {range s : List task} (hp : s.Perm range)
    (hs : SortedWrt completion_before s) :
    s.map completion_key = completion_keys range := by
  have h1 : (s.map completion_key).Sorted key_le := by
    unfold SortedWrt at hs
    rw [List.Sorted, List.pairwise_map]
    exact hs.imp (fun h => (completion_before_eq_false _ _).mp h)
  have h2 : (s.map completion_key).Perm (completion_keys range) :=
    (hp.map completion_key).trans (List.perm_insertionSort key_le _).symm
  exact List.eq_of_perm_of_sorted h2 h1 (List.sorted_insertionSort key_le _)

theorem in_completion_order_of_sorted {s : List task} (hs : SortedWrt completion_before s) :
    InCompletionOrder s := by
  unfold SortedWrt at hs
  refine hs.imp (fun {a b} h => ?_)
  rw [completion_before_eq_false] at h
  unfold key_le completion_key at h
  simp only at h
  constructor
  · omega
  · intro heq
    omega

/-! ## Order statistics -/

/-- C3: for `0 ≤ n < size`, `get_nth_to_complete` returns a task of the original range
whose (deadline, priority) key is the key at index `n` of the range sorted in
completion order. -/
theorem C3_get_nth_to_complete (N : StdNthElement task) (range : List task) (n : Int)
    (h0 : 0 ≤ n) (hn : n < range.length) :
    ∃ t r, get_nth_to_complete N range n = Outcome.value (t, r) ∧ t ∈ range ∧
      (completion_keys range)[n.toNat]? = some (completion_key t) := by
  have hlt : n.toNat < range.length := by omega
  have hperm := N.perm completion_before range n.toNat completion_before_strict (le_of_lt hlt)
  obtain ⟨s, hsp, hss, hnth⟩ :=
    N.nth_sorted completion_before range n.toNat completion_before_strict hlt
  have hr : n.toNat < (N.run completion_before range n.toNat).length := by
    rw [hperm.length_eq]; exact hlt
  refine ⟨(N.run completion_before range n.toNat)[n.toNat],
    N.run completion_before range n.toNat, ?_, ?_, ?_⟩
  · simp [get_nth_to_complete, nth_element_call, deref, Outcome.bind, h0, hn.le,
      List.getElem?_eq_getElem hr]
  · exact hperm.subset (List.getElem_mem hr)
  · rw [← keys_of_sorted_perm hsp hss, List.getElem?_map, ← hnth, List.getElem?_eq_getElem hr]
    rfl

theorem C3_get_nth_to_complete_witness :
    (0 : Int) ≤ 1 ∧ (1 : Int) < (completion_example.length : Int) ∧
    ∃ t r, get_nth_to_complete (sorting_nth_element task) completion_example 1
        = Outcome.value (t, r) ∧ t ∈ completion_example ∧
      (completion_keys completion_example)[(1 : Int).toNat]? = some (completion_key t) :=
  ⟨by decide, by decide,
    C3_get_nth_to_complete (sorting_nth_element task) completion_example 1
      (by decide) (by decide)⟩

/-- C4: for `0 ≤ n ≤ size`, `get_first_n_to_complete` returns a vector of length `n`
that is in completion order and whose keys are the first `n` keys of the range
sorted in completion order. -/
theorem C4_get_first_n_to_complete (S : StdSort task) (range : List task) (n : Int)
    (h0 : 0 ≤ n) (hn : n ≤ range.length) :
    ∃ v r, get_first_n_to_complete S range n = Outcome.value (v, r) ∧
      (v.length : Int) = n ∧ InCompletionOrder v ∧
      v.map completion_key = (completion_keys range).take n.toNat := by
  have hperm := S.perm completion_before range completion_before_strict
  have hsorted := S.sorted completion_before range completion_before_strict
  have hle : n.toNat ≤ (S.run completion_before range).length := by
    rw [hperm.length_eq]; omega
  refine ⟨(S.run completion_before range).take n.toNat, S.run completion_before range,
    ?_, ?_, ?_, ?_⟩
  · rcases eq_or_lt_of_le h0 with h | h
    · subst h
      simp [get_first_n_to_complete, vector_of_size, copy_n, Outcome.bind]
    · have h1 : ¬ n < 0 := by omega
      have h2 : ¬ n ≤ 0 := by omega
      simp [get_first_n_to_complete, vector_of_size, copy_n, Outcome.bind, h1, h2, hle]
  · rw [List.length_take, Nat.min_eq_left hle]
    omega
  · exact in_completion_order_of_sorted (hsorted.sublist (List.take_sublist _ _))
  · rw [List.map_take, keys_of_sorted_perm hperm hsorted]

theorem C4_get_first_n_to_complete_witness :
    (0 : Int) ≤ 2 ∧ (2 : Int) ≤ (completion_example.length : Int) ∧
    ∃ v r, get_first_n_to_complete (insertion_sort task) completion_example 2
        = Outcome.value (v, r) ∧
      (v.length : Int) = 2 ∧ InCompletionOrder v ∧
      v.map completion_key = (completion_keys completion_example).take (2 : Int).toNat :=
  ⟨by decide, by decide,
    C4_get_first_n_to_complete (insertion_sort task) completion_example 2
      (by decide) (by decide)⟩

/-- C5 as stated fails: on the empty range with `n = 0`, on a four-task range with
`n = 4` and with `n = -1`, `get_nth_to_complete` signals no error; the access is
outside the range. -/
theorem C5_no_error_is_signalled :
    get_nth_to_complete (sorting_nth_element task) [] 0 = Outcome.undefined ∧
    get_nth_to_complete (sorting_nth_element task) [] 0 ≠ Outcome.error ∧
    get_nth_to_complete (sorting_nth_element task) completion_example 4 = Outcome.undefined ∧
    get_nth_to_complete (sorting_nth_element task) completion_example 4 ≠ Outcome.error ∧
    get_nth_to_complete (sorting_nth_element task) completion_example (-1) = Outcome.undefined ∧
    get_nth_to_complete (sorting_nth_element task) completion_example (-1) ≠ Outcome.error := by
  decide

/-- C5, amended: for `n` outside `[0, size)`, `get_nth_to_complete` makes no bounds
check and signals no error; it accesses a position outside the range, so the call
has no defined result. -/
theorem C5_get_nth_to_complete_out_of_range (N : StdNthElement task) (range : List task)
    (n : Int) (hn : n < 0 ∨ (range.length : Int) ≤ n) :
    get_nth_to_complete N range n = Outcome.undefined ∧
    get_nth_to_complete N range n ≠ Outcome.error := by
  have key : get_nth_to_complete N range n = Outcome.undefined := by
    by_cases hvalid : 0 ≤ n ∧ n ≤ range.length
    · have heq : n = range.length := by omega
      have hperm := N.perm completion_before range n.toNat completion_before_strict (by omega)
      have hnone : (N.run completion_before range n.toNat)[n.toNat]? = none := by
        rw [List.getElem?_eq_none_iff, hperm.length_eq]
        omega
      simp [get_nth_to_complete, nth_element_call, deref, Outcome.bind, hvalid, hnone]
    · simp [get_nth_to_complete, nth_element_call, Outcome.bind, hvalid]
  exact ⟨key, by rw [key]; exact fun h => Outcome.noConfusion h⟩

theorem C5_get_nth_to_complete_out_of_range_witness :
    ((4 : Int) < 0 ∨ (completion_example.length : Int) ≤ 4) ∧
    get_nth_to_complete (sorting_nth_element task) completion_example 4 = Outcome.undefined ∧
    get_nth_to_complete (sorting_nth_element task) completion_example 4 ≠ Outcome.error :=
  ⟨by decide,
    C5_get_nth_to_complete_out_of_range (sorting_nth_element task) completion_example 4
      (by decide)⟩

/-- C6 as stated fails: asked for five tasks of a four-task range, or one task of the
empty range, `get_first_n_to_complete` reports no error; `copy_n` reads past the
end of the range. -/
theorem C6_no_error_is_reported :
    get_first_n_to_complete (insertion_sort task) completion_example 5 = Outcome.undefined ∧
    get_first_n_to_complete (insertion_sort task) completion_example 5 ≠ Outcome.error ∧
    get_first_n_to_complete (insertion_sort task) [] 1 = Outcome.undefined ∧
    get_first_n_to_complete (insertion_sort task) [] 1 ≠ Outcome.error := by
  decide

/-- C6, amended: for `n` greater than the size of the range, `get_first_n_to_complete`
makes no check of `n` and reports no error; after sorting the range, `copy_n`
reads `n` elements from its beginning, that is past its end, so the call has no
defined result. -/
theorem C6_get_first_n_to_complete_beyond_size (S : StdSort task) (range : List task)
    (n : Int) (hn : (range.length : Int) < n) :
    get_first_n_to_complete S range n = Outcome.undefined ∧
    get_first_n_to_complete S range n ≠ Outcome.error := by
  have hperm := S.perm completion_before range completion_before_strict
  have h1 : ¬ n < 0 := by omega
  have h2 : ¬ n ≤ 0 := by omega
  have h3 : ¬ n.toNat ≤ (S.run completion_before range).length := by
    rw [hperm.length_eq]; omega
  have key : get_first_n_to_complete S range n = Outcome.undefined := by
    simp [get_first_n_to_complete, vector_of_size, copy_n, Outcome.bind, h1, h2, h3]
  exact ⟨key, by rw [key]; exact fun h => Outcome.noConfusion h⟩

theorem C6_get_first_n_to_complete_beyond_size_witness :
    (completion_example.length : Int) < 5 ∧
    get_first_n_to_complete (insertion_sort task) completion_example 5 = Outcome.undefined ∧
    get_first_n_to_complete (insertion_sort task) completion_example 5 ≠ Outcome.error :=
  ⟨by decide,
    C6_get_first_n_to_complete_beyond_size (insertion_sort task) completion_example 5
      (by decide)⟩

/-! ## Partition by deadline -/

/-- The iterator `std::partition` returns is at offset "number of elements satisfying
the predicate". -/
theorem partition_point_eq_countP {α : Type} (P : StdPartition α) (p : α → Bool)
    (l : List α) : (P.run p l).2 = l.countP p := by
  have hperm := P.perm p l
  have hb := P.bound p l
  have hfront : ((P.run p l).1.take (P.run p l).2).countP p
      = ((P.run p l).1.take (P.run p l).2).length :=
    List.countP_eq_length.mpr (P.front p l)
  have hback : ((P.run p l).1.drop (P.run p l).2).countP p = 0 :=
    List.countP_eq_zero.mpr (fun x hx => by simp [P.back p l x hx])
  have hsplit : (P.run p l).1.countP p
      = ((P.run p l).1.take (P.run p l).2).countP p
        + ((P.run p l).1.drop (P.run p l).2).countP p := by
    rw [← List.countP_append, List.take_append_drop]
  rw [← hperm.countP_eq p, hsplit, hfront, hback, List.length_take, hperm.length_eq]
  omega

/-- C8: when some task is due strictly before the threshold, `separate_by_deadline`
leaves a permutation of the range in which the tasks due before the threshold
come first, and returns the position `k` of the last of them: the task at `k` is
due before the threshold and the task at `k + 1`, if any, is due on or after it. -/
theorem C8_separate_by_deadline (P : StdPartition task) (range : List task) (deadline : Int)
    (h : ∃ t ∈ range, t.deadline < deadline) :
    (separate_by_deadline P range deadline).1.Perm range ∧
    ∃ k : Nat, (separate_by_deadline P range deadline).2 = (k : Int) ∧
      k < (separate_by_deadline P range deadline).1.length ∧
      (∀ x ∈ (separate_by_deadline P range deadline).1.take (k + 1), x.deadline < deadline) ∧
      (∀ x ∈ (separate_by_deadline P range deadline).1.drop (k + 1), deadline ≤ x.deadline) ∧
      (∃ t, (separate_by_deadline P range deadline).1[k]? = some t ∧ t.deadline < deadline) ∧
      (∀ t, (separate_by_deadline P range deadline).1[k + 1]? = some t →
        deadline ≤ t.deadline) := by
  obtain ⟨t0, ht0, hlt0⟩ := h
  have h1 : (separate_by_deadline P range deadline).1
      = (P.run (fun t => decide (t.deadline < deadline)) range).1 := rfl
  have h2 : (separate_by_deadline P range deadline).2
      = ((P.run (fun t => decide (t.deadline < deadline)) range).2 : Int) - 1 := rfl
  rw [h1, h2]
  have hperm := P.perm (fun t => decide (t.deadline < deadline)) range
  have hb := P.bound (fun t => decide (t.deadline < deadline)) range
  have hfront := P.front (fun t => decide (t.deadline < deadline)) range
  have hback := P.back (fun t => decide (t.deadline < deadline)) range
  have hpos : 0 < (P.run (fun t => decide (t.deadline < deadline)) range).2 := by
    rw [partition_point_eq_countP]
    exact List.countP_pos_iff.mpr ⟨t0, ht0, by simpa using hlt0⟩
  generalize P.run (fun t => decide (t.deadline < deadline)) range = r at *
  obtain ⟨res, i⟩ := r
  simp only at hperm hb hfront hback hpos ⊢
  obtain ⟨k, rfl⟩ : ∃ k, i = k + 1 := ⟨i - 1, by omega⟩
  have hk : k < res.length := by rw [hperm.length_eq]; omega
  refine ⟨hperm, k, by push_cast; ring, hk, ?_, ?_, ?_, ?_⟩
  · intro x hx
    simpa using hfront x hx
  · intro x hx
    simpa using hback x hx
  · refine ⟨res[k], List.getElem?_eq_getElem hk, ?_⟩
    have hmem : res[k] ∈ res.take (k + 1) := by
      rw [List.mem_iff_getElem?]
      exact ⟨k, by rw [List.getElem?_take_of_lt (Nat.lt_succ_self k), List.getElem?_eq_getElem hk]⟩
    simpa using hfront _ hmem
  · intro t ht
    have hmem : t ∈ res.drop (k + 1) := by
      rw [List.mem_iff_getElem?]
      exact ⟨0, by rw [List.getElem?_drop]; simpa using ht⟩
    simpa using hback t hmem

theorem C8_separate_by_deadline_witness :
    (∃ t ∈ completion_example, t.deadline < 7) ∧
    (separate_by_deadline (filter_partition task) completion_example 7).1.Perm
      completion_example ∧
    ∃ k : Nat, (separate_by_deadline (filter_partition task) completion_example 7).2 = (k : Int) ∧
      k < (separate_by_deadline (filter_partition task) completion_example 7).1.length ∧
      (∀ x ∈ (separate_by_deadline (filter_partition task) completion_example 7).1.take (k + 1),
        x.deadline < 7) ∧
      (∀ x ∈ (separate_by_deadline (filter_partition task) completion_example 7).1.drop (k + 1),
        7 ≤ x.deadline) ∧
      (∃ t, (separate_by_deadline (filter_partition task) completion_example 7).1[k]? = some t ∧
        t.deadline < 7) ∧
      (∀ t, (separate_by_deadline (filter_partition task) completion_example 7).1[k + 1]? = some t →
        7 ≤ t.deadline) :=
  ⟨⟨task_at 1 3 5, by decide, by decide⟩,
    C8_separate_by_deadline (filter_partition task) completion_example 7
      ⟨task_at 1 3 5, by decide, by decide⟩⟩

/-- C9: when no task is due strictly before the threshold (the empty range included),
`separate_by_deadline` returns position `-1`, one before the beginning of the
range. -/
theorem C9_separate_by_deadline_before_begin (P : StdPartition task) (range : List task)
    (deadline : Int) (h : ∀ t ∈ range, deadline ≤ t.deadline) :
    (separate_by_deadline P range deadline).2 = -1 ∧
    (separate_by_deadline P range deadline).2 < 0 := by
  have h2 : (separate_by_deadline P range deadline).2
      = ((P.run (fun t => decide (t.deadline < deadline)) range).2 : Int) - 1 := rfl
  have hzero : (P.run (fun t => decide (t.deadline < deadline)) range).2 = 0 := by
    rw [partition_point_eq_countP]
    exact List.countP_eq_zero.mpr (fun t ht => by simpa using h t ht)
  rw [h2, hzero]
  exact ⟨by norm_num, by norm_num⟩

theorem C9_separate_by_deadline_before_begin_witness :
    (∀ t ∈ completion_example, (2 : Int) ≤ t.deadline) ∧
    (separate_by_deadline (filter_partition task) completion_example 2).2 = -1 ∧
    (separate_by_deadline (filter_partition task) completion_example 2).2 < 0 :=
  ⟨by decide,
    C9_separate_by_deadline_before_begin (filter_partition task) completion_example 2
      (by decide)⟩

/-! ## Listing by priority -/

theorem id_prio_before_eq_true (a b : id_prio) :
    id_prio_before a b = true ↔ a.2 < b.2 ∨ (a.2 = b.2 ∧ a.1 < b.1) := by
  unfold id_prio_before
  by_cases h1 : a.2 < b.2
  · simp [h1]
  · by_cases h2 : a.2 = b.2 ∧ a.1 < b.1
    · simp [h1, h2]
    · simp only [h1, h2, if_false, false_or]
      simp

theorem id_prio_before_eq_false (a b : id_prio) :
    id_prio_before b a = false ↔ id_prio_le a b := by
  rw [← Bool.not_eq_true, id_prio_before_eq_true]
  unfold id_prio_le
  omega

theorem id_prio_before_strict : StrictWeakOrder id_prio_before := by
  refine ⟨fun a => ?_, fun a b c hab hbc => ?_, fun a b c h1 h2 h3 h4 => ?_⟩
  · rw [id_prio_before_eq_false]
    exact Or.inr ⟨rfl, le_refl _⟩
  · rw [id_prio_before_eq_true] at hab hbc ⊢
    omega
  · simp only [id_prio_before_eq_false, id_prio_le] at h1 h2 h3 h4 ⊢
    constructor <;> omega

instance id_prio_le_antisymm : IsAntisymm id_prio id_prio_le :=
  ⟨fun a b h1 h2 => by
    unfold id_prio_le at h1 h2
    exact Prod.ext (by omega) (by omega)⟩

/-- The vector handed to `std::sort` holds the `<id, priority>` pair of every task, in
range order. -/
theorem transform_into_replicate {α β : Type} (src : List α) (f : α → β) (d : β) :
    transform_into src f (List.replicate src.length d) = src.map f := by
  simp [transform_into]

/-- C10: `list_sorted_by_prio` returns a permutation of the `<id, priority>` pairs of
the range (so of the same length), sorted by priority ascending with equal
priorities ordered by id ascending; ranges that are permutations of each other
give the identical result, whatever conforming `std::sort` is used. -/
theorem C10_list_sorted_by_prio (S : StdSort id_prio) (range : List task) :
    (list_sorted_by_prio S range).Perm (range.map fun t => (t.id, t.priority)) ∧
    (list_sorted_by_prio S range).length = range.length ∧
    (list_sorted_by_prio S range).Pairwise id_prio_le ∧
    ∀ (S' : StdSort id_prio) (range' : List task), range'.Perm range →
      list_sorted_by_prio S' range' = list_sorted_by_prio S range := by
  have hrun : ∀ (T : StdSort id_prio) (l : List task),
      list_sorted_by_prio T l = T.run id_prio_before (l.map fun t => (t.id, t.priority)) := by
    intro T l
    unfold list_sorted_by_prio
    simp only [transform_into_replicate]
  have hperm : ∀ (T : StdSort id_prio) (l : List task),
      (list_sorted_by_prio T l).Perm (l.map fun t => (t.id, t.priority)) := by
    intro T l
    rw [hrun]
    exact T.perm id_prio_before _ id_prio_before_strict
  have hsorted : ∀ (T : StdSort id_prio) (l : List task),
      (list_sorted_by_prio T l).Pairwise id_prio_le := by
    intro T l
    rw [hrun]
    exact (T.sorted id_prio_before _ id_prio_before_strict).imp
      (fun h => (id_prio_before_eq_false _ _).mp h)
  refine ⟨hperm S range, ?_, hsorted S range, ?_⟩
  · rw [(hperm S range).length_eq, List.length_map]
  · intro S' range' hp
    exact List.eq_of_perm_of_sorted
      (((hperm S' range').trans (hp.map _)).trans (hperm S range).symm)
      (hsorted S' range') (hsorted S range)

theorem C10_list_sorted_by_prio_witness :
    list_sorted_by_prio (insertion_sort id_prio) completion_example.reverse
      = list_sorted_by_prio (insertion_sort id_prio) completion_example :=
  (C10_list_sorted_by_prio (insertion_sort id_prio) completion_example).2.2.2
    (insertion_sort id_prio) completion_example.reverse (List.reverse_perm _)

/-! ## In-place transforms -/

/-- C16: after `remove_asignee_from_all` the range has the same tasks in the same order,
each with its id, deadline, priority and cost unchanged, without the person among
its assignees and with exactly its other assignees; and a second application
with the same person changes nothing. -/
theorem C16_remove_asignee_from_all (range : List task) (person : String) :
    List.Forall₂
      (fun t t' => t'.id = t.id ∧ t'.deadline = t.deadline ∧ t'.priority = t.priority ∧
        t'.cost = t.cost ∧ person ∉ t'.assignees ∧
        ∀ q, q ≠ person → (q ∈ t'.assignees ↔ q ∈ t.assignees))
      range (remove_asignee_from_all range person) ∧
    (∀ t ∈ remove_asignee_from_all range person, person ∉ t.assignees) ∧
    (remove_asignee_from_all range person).length = range.length ∧
    remove_asignee_from_all (remove_asignee_from_all range person) person
      = remove_asignee_from_all range person := by
  refine ⟨?_, ?_, ?_, ?_⟩
  · unfold remove_asignee_from_all
    rw [List.forall₂_map_right_iff, List.forall₂_same]
    intro t _
    refine ⟨rfl, rfl, rfl, rfl, ?_, ?_⟩
    · simp
    · intro q hq
      simp [hq]
  · intro t ht
    unfold remove_asignee_from_all at ht
    obtain ⟨u, _, rfl⟩ := List.mem_map.mp ht
    simp
  · simp [remove_asignee_from_all]
  · unfold remove_asignee_from_all
    rw [List.map_map]
    refine List.map_congr_left (fun t _ => ?_)
    simp

/-- C17: `extend_deadlines` leaves the range with the same length and order; a task
with the given priority has the (possibly negative) extension added to its
deadline and nothing else changed, and a task with another priority is
unchanged. -/
theorem C17_extend_deadlines (range : List task) (priority extension : Int) :
    (extend_deadlines range priority extension).length = range.length ∧
    List.Forall₂
      (fun t t' =>
        (t.priority = priority → t' = { t with deadline := t.deadline + extension }) ∧
        (t.priority ≠ priority → t' = t))
      range (extend_deadlines range priority extension) := by
  have hrun : extend_deadlines range priority extension
      = range.map (fun t =>
          if t.priority = priority then { t with deadline := t.deadline + extension } else t) := by
    simp [extend_deadlines, transform_into]
  rw [hrun]
  refine ⟨by simp, ?_⟩
  rw [List.forall₂_map_right_iff, List.forall₂_same]
  intro t _
  constructor
  · intro h
    simp [h]
  · intro h
    simp [h]

/-! ## Filtering -/

/-- C18: `get_tasks_with_priority` returns exactly the tasks of the range that have the
given priority, in range order, with no value-initialised element left in the
vector, and the range itself is as it was. -/
theorem C18_get_tasks_with_priority (range : List task) (priority : Int) :
    get_tasks_with_priority range priority
      = Outcome.value (range.filter (fun t => decide (t.priority = priority)), range) ∧
    (range.filter (fun t => decide (t.priority = priority))).Sublist range ∧
    (∀ t, t ∈ range.filter (fun t => decide (t.priority = priority)) ↔
      t ∈ range ∧ t.priority = priority) := by
  refine ⟨?_, List.filter_sublist _, fun t => by simp [List.mem_filter]⟩
  have hlen : (range.filter (fun t => decide (t.priority = priority))).length
      = range.countP (fun t => decide (t.priority = priority)) :=
    (List.countP_eq_length_filter _ _).symm
  have hneg : ¬ ((range.countP (fun t => decide (t.priority = priority)) : Int) < 0) := by
    omega
  simp [get_tasks_with_priority, count_if, vector_of_size, copy_if, Outcome.bind, hneg, hlen]

/-! ## Totals -/

/-- Adding the costs of the tasks one by one is adding the sequence of their costs. -/
theorem foldl_double_add_cost (range : List task) (init : fdouble) :
    range.foldl (fun current t => double_add current (.finite t.cost)) init
      = (range.map task.cost).foldl (fun acc c => double_add acc (.finite c)) init := by
  rw [List.foldl_map]

/-- Adding the costs of the tasks of one person is adding the sequence of the costs of
the tasks assigned to that person. -/
theorem foldl_double_add_cost_of (range : List task) (assignee : String) (init : fdouble) :
    range.foldl
        (fun current t =>
          if assignee ∈ t.assignees then double_add current (.finite t.cost) else current) init
      = ((range.filter (fun t => decide (assignee ∈ t.assignees))).map task.cost).foldl
          (fun acc c => double_add acc (.finite c)) init := by
  induction range generalizing init with
  | nil => rfl
  | cons t ts ih =>
    rw [List.foldl_cons, ih]
    by_cases h : assignee ∈ t.assignees
    · simp [h, List.filter_cons]
    · simp [h, List.filter_cons]

/-- While every partial sum is a `double`, no addition rounds and the accumulated value
is the exact sum. -/
theorem foldl_double_add_exact (costs : List ℚ) (init : ℚ)
    (h : ∀ k, k ≤ costs.length →
      round_to_double (init + (costs.take k).sum) = .finite (init + (costs.take k).sum)) :
    costs.foldl (fun acc c => double_add acc (.finite c)) (.finite init)
      = .finite (init + costs.sum) := by
  induction costs generalizing init with
  | nil => simp
  | cons c cs ih =>
    have h1 := h 1 (by simp)
    simp only [List.take_succ_cons, List.take_zero, List.sum_cons, List.sum_nil, add_zero] at h1
    have hstep : double_add (.finite init) (.finite c) = .finite (init + c) := h1
    rw [List.foldl_cons, hstep, ih (init + c), List.sum_cons, add_assoc]
    intro k hk
    have hk1 := h (k + 1) (by simpa using hk)
    simp only [List.take_succ_cons, List.sum_cons] at hk1
    rw [add_assoc]
    exact hk1

/-- C19 as stated fails: on tasks of costs `2 ^ 53`, `1`, `1` the sum of the cost fields
is `2 ^ 53 + 2` and `total_cost` returns `2 ^ 53`, because `2 ^ 53 + 1` rounds
back to `2 ^ 53` at each addition; on the same tasks in reverse order it returns
`2 ^ 53 + 2`. -/
theorem C19_total_cost_is_rounded :
    (rounding_example.map task.cost).sum = 9007199254740994 ∧
    total_cost rounding_example = fdouble.finite 9007199254740992 ∧
    total_cost rounding_example ≠ fdouble.finite ((rounding_example.map task.cost).sum) ∧
    total_cost rounding_example.reverse = fdouble.finite 9007199254740994 := by
  decide!

/-- C19, amended: `total_cost` is the sum of the costs of all tasks of the range
accumulated in range order in `double` arithmetic from `0.0`, whatever the
assignees (two ranges with the same cost sequence have the same total), and
`0.0` on the empty range; it is the exact sum whenever every partial sum is a
`double`; `total_cost_of` is the sum, accumulated the same way, of the costs of
exactly the tasks that have the person among their assignees. -/
theorem C19_total_cost_accumulates_in_double (range : List task) :
    total_cost range = double_sum (range.map task.cost) ∧
    total_cost [] = fdouble.finite 0 ∧
    (∀ range' : List task, range'.map task.cost = range.map task.cost →
      total_cost range' = total_cost range) ∧
    ((∀ k, k ≤ range.length →
        round_to_double (((range.take k).map task.cost).sum)
          = fdouble.finite (((range.take k).map task.cost).sum)) →
      total_cost range = fdouble.finite ((range.map task.cost).sum)) ∧
    ∀ person : String, total_cost_of range person
      = double_sum ((range.filter (fun t => decide (person ∈ t.assignees))).map task.cost) := by
  have htotal : ∀ l : List task, total_cost l = double_sum (l.map task.cost) := by
    intro l
    unfold total_cost accumulate double_sum
    exact foldl_double_add_cost l _
  refine ⟨htotal range, rfl, ?_, ?_, ?_⟩
  · intro range' h
    rw [htotal, htotal, h]
  · intro h
    rw [htotal]
    unfold double_sum
    rw [foldl_double_add_exact (range.map task.cost) 0, zero_add]
    intro k hk
    rw [zero_add, ← List.map_take]
    exact h k (by simpa using hk)
  · intro person
    unfold total_cost_of accumulate double_sum
    exact foldl_double_add_cost_of range person _

theorem C19_total_cost_accumulates_in_double_witness :
    (∀ k, k ≤ burndown_example.length →
      round_to_double (((burndown_example.take k).map task.cost).sum)
        = fdouble.finite (((burndown_example.take k).map task.cost).sum)) ∧
    total_cost burndown_example = fdouble.finite ((burndown_example.map task.cost).sum) :=
  ⟨by decide!,
    (C19_total_cost_accumulates_in_double burndown_example).2.2.2.1 (by decide!)⟩

/-! ## Side effect of `get_first_n_to_complete` -/

/-- C20: for `0 ≤ n ≤ size`, after `get_first_n_to_complete` the caller's range is a
permutation of its original contents in completion order, and the returned vector
is the first `n` elements of the range as it stands after the call. -/
theorem C20_get_first_n_to_complete_sorts_range (S : StdSort task) (range : List task)
    (n : Int) (h0 : 0 ≤ n) (hn : n ≤ range.length) :
    ∃ v r, get_first_n_to_complete S range n = Outcome.value (v, r) ∧
      r.Perm range ∧ InCompletionOrder r ∧ v = r.take n.toNat := by
  have hperm := S.perm completion_before range completion_before_strict
  have hsorted := S.sorted completion_before range completion_before_strict
  have hle : n.toNat ≤ (S.run completion_before range).length := by
    rw [hperm.length_eq]; omega
  refine ⟨(S.run completion_before range).take n.toNat, S.run completion_before range,
    ?_, hperm, in_completion_order_of_sorted hsorted, rfl⟩
  rcases eq_or_lt_of_le h0 with h | h
  · subst h
    simp [get_first_n_to_complete, vector_of_size, copy_n, Outcome.bind]
  · have h1 : ¬ n < 0 := by omega
    have h2 : ¬ n ≤ 0 := by omega
    simp [get_first_n_to_complete, vector_of_size, copy_n, Outcome.bind, h1, h2, hle]

theorem C20_get_first_n_to_complete_sorts_range_witness :
    (0 : Int) ≤ 3 ∧ (3 : Int) ≤ (completion_example.length : Int) ∧
    ∃ v r, get_first_n_to_complete (insertion_sort task) completion_example 3
        = Outcome.value (v, r) ∧
      r.Perm completion_example ∧ InCompletionOrder r ∧ v = r.take (3 : Int).toNat :=
  ⟨by decide, by decide,
    C20_get_first_n_to_complete_sorts_range (insertion_sort task) completion_example 3
      (by decide) (by decide)⟩

/-! ## Adding an assignee -/

/-- How `add_assignee_to_task` proceeds along the range. -/
theorem add_assignee_to_task_cons (x : task) (xs : List task) (id : Int) (person : String) :
    add_assignee_to_task (x :: xs) id person
      = if x.id = id then
          (if person ∈ x.assignees then (x :: xs, false)
            else (with_assignee x person :: xs, true))
        else (x :: (add_assignee_to_task xs id person).1,
          (add_assignee_to_task xs id person).2) := by
  unfold add_assignee_to_task find_if with_assignee
  by_cases h : x.id = id
  · simp [List.findIdx_cons, h]
  · simp only [List.findIdx_cons, h, decide_False, cond_false, List.getElem?_cons_succ,
      if_false]
    cases hx : xs[List.findIdx (fun t => decide (t.id = id)) xs]? with
    | none => simp
    | some found =>
      by_cases hp : person ∈ found.assignees
      · simp [hp]
      · simp [hp]

/-- No task has the id: nothing happens. -/
theorem add_assignee_to_task_absent (range : List task) (id : Int) (person : String)
    (h : ∀ t ∈ range, t.id ≠ id) :
    add_assignee_to_task range id person = (range, false) := by
  induction range with
  | nil => rfl
  | cons x xs ih =>
    rw [add_assignee_to_task_cons, if_neg (h x (List.mem_cons_self _ _)),
      ih (fun t ht => h t (List.mem_cons_of_mem _ ht))]

/-- The first task with the id is `t`: only `t` is looked at. -/
theorem add_assignee_to_task_first (front back : List task) (t : task) (id : Int)
    (person : String) (hfront : ∀ x ∈ front, x.id ≠ id) (ht : t.id = id) :
    add_assignee_to_task (front ++ t :: back) id person
      = if person ∈ t.assignees then (front ++ t :: back, false)
        else (front ++ with_assignee t person :: back, true) := by
  induction front with
  | nil =>
    rw [List.nil_append, add_assignee_to_task_cons, if_pos ht]
    rfl
  | cons x xs ih =>
    rw [List.cons_append, add_assignee_to_task_cons, if_neg (hfront x (List.mem_cons_self _ _)),
      ih (fun y hy => hfront y (List.mem_cons_of_mem _ hy))]
    by_cases hp : person ∈ t.assignees
    · simp [hp]
    · simp [hp]

/-- Either no task has the id, or the range splits at the first task with the id. -/
theorem first_with_id_cases (range : List task) (id : Int) :
    (∀ t ∈ range, t.id ≠ id) ∨
    ∃ front t back, range = front ++ t :: back ∧ (∀ x ∈ front, x.id ≠ id) ∧ t.id = id ∧
      range.find? (fun t => decide (t.id = id)) = some t := by
  cases hfind : range.find? (fun t => decide (t.id = id)) with
  | none =>
    left
    intro t ht
    have := List.find?_eq_none.mp hfind t ht
    simpa using this
  | some t =>
    right
    obtain ⟨hpt, front, back, hsplit, hfront⟩ := List.find?_eq_some.mp hfind
    exact ⟨front, t, back, hsplit, fun x hx => by simpa using hfront x hx, by simpa using hpt, rfl⟩

/-- C11: `add_assignee_to_task` returns false exactly when no task has the id or the
first task with the id already has the person; in that case the range is
unchanged.  Otherwise it returns true and the range differs only in the first
task with the id, which has the person added to its assignees; later tasks with
the same id are untouched. -/
theorem C11_add_assignee_to_task (range : List task) (id : Int) (person : String) :
    ((add_assignee_to_task range id person).2 = false ↔
      ((∀ t ∈ range, t.id ≠ id) ∨
        ∃ t, range.find? (fun t => decide (t.id = id)) = some t ∧ person ∈ t.assignees)) ∧
    ((add_assignee_to_task range id person).2 = false →
      (add_assignee_to_task range id person).1 = range) ∧
    ((add_assignee_to_task range id person).2 = true →
      ∃ front t back, range = front ++ t :: back ∧ (∀ x ∈ front, x.id ≠ id) ∧ t.id = id ∧
        person ∉ t.assignees ∧
        (add_assignee_to_task range id person).1 = front ++ with_assignee t person :: back) := by
  rcases first_with_id_cases range id with habs | ⟨front, t, back, hsplit, hfront, ht, hfind⟩
  · rw [add_assignee_to_task_absent range id person habs]
    exact ⟨⟨fun _ => Or.inl habs, fun _ => rfl⟩, fun _ => rfl, fun h => by simp at h⟩
  · have hrun := add_assignee_to_task_first front back t id person hfront ht
    rw [← hsplit] at hrun
    by_cases hp : person ∈ t.assignees
    · rw [if_pos hp] at hrun
      rw [hrun]
      exact ⟨⟨fun _ => Or.inr ⟨t, hfind, hp⟩, fun _ => rfl⟩, fun _ => rfl, fun h => by simp at h⟩
    · rw [if_neg hp] at hrun
      rw [hrun]
      refine ⟨⟨fun h => by simp at h, ?_⟩, fun h => by simp at h,
        fun _ => ⟨front, t, back, hsplit, hfront, ht, hp, rfl⟩⟩
      rintro (habs | ⟨u, hu, hpu⟩)
      · exact absurd ht (habs t (by rw [hsplit]; simp))
      · rw [hfind] at hu
        cases hu
        exact absurd hpu hp

theorem C11_add_assignee_to_task_witness :
    (add_assignee_to_task assignee_example 2 "bob").2 = true ∧
    ∃ front t back, assignee_example = front ++ t :: back ∧ (∀ x ∈ front, x.id ≠ 2) ∧
      t.id = 2 ∧ "bob" ∉ t.assignees ∧
      (add_assignee_to_task assignee_example 2 "bob").1
        = front ++ with_assignee t "bob" :: back :=
  ⟨by decide, (C11_add_assignee_to_task assignee_example 2 "bob").2.2 (by decide)⟩

/-- C12: when the first task with the id does not have the person yet, a first call of
`add_assignee_to_task` returns true, a second call with the same id and person
returns false, and the range after the second call is the range after the
first. -/
theorem C12_add_assignee_to_task_twice (range : List task) (id : Int) (person : String)
    (h : ∃ t, range.find? (fun t => decide (t.id = id)) = some t ∧ person ∉ t.assignees) :
    (add_assignee_to_task range id person).2 = true ∧
    (add_assignee_to_task (add_assignee_to_task range id person).1 id person).2 = false ∧
    (add_assignee_to_task (add_assignee_to_task range id person).1 id person).1
      = (add_assignee_to_task range id person).1 := by
  obtain ⟨t, hfind, hp⟩ := h
  obtain ⟨hpt, front, back, hsplit, hfront⟩ := List.find?_eq_some.mp hfind
  have hfront' : ∀ x ∈ front, x.id ≠ id := fun x hx => by simpa using hfront x hx
  have ht : t.id = id := by simpa using hpt
  have hfirst := add_assignee_to_task_first front back t id person hfront' ht
  rw [if_neg hp] at hfirst
  have hin : person ∈ (with_assignee t person).assignees := by
    simp [with_assignee]
  have hsecond := add_assignee_to_task_first front back (with_assignee t person) id person
    hfront' ht
  rw [if_pos hin] at hsecond
  rw [hsplit, hfirst]
  simp only [hsecond, and_self]

theorem C12_add_assignee_to_task_twice_witness :
    (∃ t, assignee_example.find? (fun t => decide (t.id = 2)) = some t ∧
      "zack" ∉ t.assignees) ∧
    (add_assignee_to_task assignee_example 2 "zack").2 = true ∧
    (add_assignee_to_task (add_assignee_to_task assignee_example 2 "zack").1 2 "zack").2
      = false ∧
    (add_assignee_to_task (add_assignee_to_task assignee_example 2 "zack").1 2 "zack").1
      = (add_assignee_to_task assignee_example 2 "zack").1 :=
  ⟨⟨task_of 2 ∅, by decide, by decide⟩,
    C12_add_assignee_to_task_twice assignee_example 2 "zack"
      ⟨task_of 2 ∅, by decide, by decide⟩⟩

/-! ## Cheapest and most expensive -/

/-- Dereferencing a position that holds an element. -/
theorem deref_of_getElem? {α : Type} (range : List α) (i : Nat) (x : α)
    (h : range[i]? = some x) : deref range (i : Int) = Outcome.value x := by
  simp [deref, h]

theorem exists_min_cost (range : List task) (h : range ≠ []) :
    ∃ x ∈ range, ∀ y ∈ range, x.cost ≤ y.cost := by
  induction range with
  | nil => exact absurd rfl h
  | cons a l ih =>
    by_cases hl : l = []
    · subst hl
      exact ⟨a, by simp, by simp⟩
    · obtain ⟨m, hm, hmin⟩ := ih hl
      by_cases hle : a.cost ≤ m.cost
      · refine ⟨a, by simp, fun y hy => ?_⟩
        rcases List.mem_cons.mp hy with rfl | hy
        · exact le_refl _
        · exact le_trans hle (hmin y hy)
      · refine ⟨m, List.mem_cons_of_mem _ hm, fun y hy => ?_⟩
        rcases List.mem_cons.mp hy with rfl | hy
        · exact le_of_lt (not_le.mp hle)
        · exact hmin y hy

theorem exists_max_cost (range : List task) (h : range ≠ []) :
    ∃ x ∈ range, ∀ y ∈ range, y.cost ≤ x.cost := by
  induction range with
  | nil => exact absurd rfl h
  | cons a l ih =>
    by_cases hl : l = []
    · subst hl
      exact ⟨a, by simp, by simp⟩
    · obtain ⟨m, hm, hmax⟩ := ih hl
      by_cases hle : m.cost ≤ a.cost
      · refine ⟨a, by simp, fun y hy => ?_⟩
        rcases List.mem_cons.mp hy with rfl | hy
        · exact le_refl _
        · exact le_trans (hmax y hy) hle
      · refine ⟨m, List.mem_cons_of_mem _ hm, fun y hy => ?_⟩
        rcases List.mem_cons.mp hy with rfl | hy
        · exact le_of_lt (not_le.mp hle)
        · exact hmax y hy

/-- The position `findIdx` gives holds the first element that satisfies the predicate. -/
theorem findIdx_first {α : Type} (p : α → Bool) (l : List α) (hex : ∃ x ∈ l, p x = true) :
    ∃ a, l[l.findIdx p]? = some a ∧ p a = true ∧
      ∀ k t, k < l.findIdx p → l[k]? = some t → p t = false := by
  have hlt : l.findIdx p < l.length := List.findIdx_lt_length_of_exists hex
  refine ⟨l[l.findIdx p], List.getElem?_eq_getElem hlt, List.findIdx_getElem, ?_⟩
  intro k t hk hkt
  have hklen : k < l.length := lt_trans hk hlt
  rw [List.getElem?_eq_getElem hklen] at hkt
  cases hkt
  exact List.not_of_lt_findIdx hk

/-- Counting `findIdx` of the reversed list from the back gives the position of the last
element that satisfies the predicate. -/
theorem findIdx_last {α : Type} (q : α → Bool) (l : List α) (hex : ∃ x ∈ l, q x = true) :
    ∃ a, l[l.length - 1 - l.reverse.findIdx q]? = some a ∧ q a = true ∧
      ∀ k t, l.length - 1 - l.reverse.findIdx q < k → l[k]? = some t → q t = false := by
  have hex' : ∃ x ∈ l.reverse, q x = true := by
    obtain ⟨x, hx, hqx⟩ := hex
    exact ⟨x, List.mem_reverse.mpr hx, hqx⟩
  obtain ⟨a, ha, hqa, hbefore⟩ := findIdx_first q l.reverse hex'
  have hlt : l.reverse.findIdx q < l.length := by
    have := List.findIdx_lt_length_of_exists hex'
    simpa using this
  refine ⟨a, ?_, hqa, ?_⟩
  · rw [← List.getElem?_reverse hlt]
    exact ha
  · intro k t hk hkt
    have hklen : k < l.length := by
      by_contra hge
      rw [List.getElem?_eq_none (not_lt.mp hge)] at hkt
      cases hkt
    have hidx : l.length - 1 - k < l.reverse.findIdx q := by omega
    have hrev : l.reverse[l.length - 1 - k]? = some t := by
      rw [List.getElem?_reverse (by omega)]
      have : l.length - 1 - (l.length - 1 - k) = k := by omega
      rw [this]
      exact hkt
    exact hbefore _ t hidx hrev

/-- The first iterator of `std::minmax_element` under the cost comparator: it is at the
earliest task of minimum cost. -/
theorem minmax_element_cost_min (range : List task) (h : range ≠ []) :
    ∃ mn, range[(minmax_element (fun (lhs rhs : task) => decide (lhs.cost < rhs.cost))
        range).1]? = some mn ∧
      (∀ y ∈ range, mn.cost ≤ y.cost) ∧
      ∀ k t, k < (minmax_element (fun (lhs rhs : task) => decide (lhs.cost < rhs.cost))
        range).1 → range[k]? = some t → mn.cost < t.cost := by
  have hp : ∀ x : task, (range.all fun y => !decide (y.cost < x.cost)) = true ↔
      ∀ y ∈ range, x.cost ≤ y.cost := by
    intro x
    simp [List.all_eq_true]
  obtain ⟨x0, hx0, hmin0⟩ := exists_min_cost range h
  obtain ⟨mn, hmn, hpmn, hbefore⟩ :=
    findIdx_first (fun x : task => range.all fun y => !decide (y.cost < x.cost)) range
      ⟨x0, hx0, (hp x0).mpr hmin0⟩
  simp only [minmax_element]
  have hleast := (hp mn).mp hpmn
  refine ⟨mn, hmn, hleast, ?_⟩
  intro k t hk hkt
  have hnot := hbefore k t hk hkt
  have hnot' : ¬ ∀ y ∈ range, t.cost ≤ y.cost := by
    intro hall
    have := (hp t).mpr hall
    simp only at hnot
    rw [this] at hnot
    exact Bool.noConfusion hnot
  push_neg at hnot'
  obtain ⟨y, hy, hylt⟩ := hnot'
  exact lt_of_le_of_lt (hleast y hy) hylt

/-- The second iterator of `std::minmax_element` under the cost comparator: it is at the
latest task of maximum cost. -/
theorem minmax_element_cost_max (range : List task) (h : range ≠ []) :
    ∃ mx, range[(minmax_element (fun (lhs rhs : task) => decide (lhs.cost < rhs.cost))
        range).2]? = some mx ∧
      (∀ y ∈ range, y.cost ≤ mx.cost) ∧
      ∀ k t, (minmax_element (fun (lhs rhs : task) => decide (lhs.cost < rhs.cost))
        range).2 < k → range[k]? = some t → t.cost < mx.cost := by
  have hq : ∀ x : task, (range.all fun y => !decide (x.cost < y.cost)) = true ↔
      ∀ y ∈ range, y.cost ≤ x.cost := by
    intro x
    simp [List.all_eq_true]
  obtain ⟨x0, hx0, hmax0⟩ := exists_max_cost range h
  obtain ⟨mx, hmx, hqmx, hafter⟩ :=
    findIdx_last (fun x : task => range.all fun y => !decide (x.cost < y.cost)) range
      ⟨x0, hx0, (hq x0).mpr hmax0⟩
  simp only [minmax_element]
  have hgreatest := (hq mx).mp hqmx
  refine ⟨mx, hmx, hgreatest, ?_⟩
  intro k t hk hkt
  have hnot := hafter k t hk hkt
  have hnot' : ¬ ∀ y ∈ range, y.cost ≤ t.cost := by
    intro hall
    have := (hq t).mpr hall
    simp only at hnot
    rw [this] at hnot
    exact Bool.noConfusion hnot
  push_neg at hnot'
  obtain ⟨y, hy, hylt⟩ := hnot'
  exact lt_of_lt_of_le hylt (hgreatest y hy)

/-- The pair returned is the pair of elements at the two iterators. -/
theorem cheapest_and_most_expensive_value (range : List task) (mn mx : task)
    (hmn : range[(minmax_element (fun (lhs rhs : task) => decide (lhs.cost < rhs.cost))
      range).1]? = some mn)
    (hmx : range[(minmax_element (fun (lhs rhs : task) => decide (lhs.cost < rhs.cost))
      range).2]? = some mx) :
    cheapest_and_most_expensive range = Outcome.value (mn, mx) := by
  unfold cheapest_and_most_expensive
  simp only [deref_of_getElem? range _ mn hmn, deref_of_getElem? range _ mx hmx, Outcome.bind]

/-- C13: on a non-empty range `cheapest_and_most_expensive` returns two tasks of the
range, the first of minimum cost and the second of maximum cost. -/
theorem C13_cheapest_and_most_expensive (range : List task) (h : range ≠ []) :
    ∃ mn mx, cheapest_and_most_expensive range = Outcome.value (mn, mx) ∧
      mn ∈ range ∧ mx ∈ range ∧
      (∀ t ∈ range, mn.cost ≤ t.cost) ∧ (∀ t ∈ range, t.cost ≤ mx.cost) := by
  obtain ⟨mn, hmn, hleast, _⟩ := minmax_element_cost_min range h
  obtain ⟨mx, hmx, hgreatest, _⟩ := minmax_element_cost_max range h
  exact ⟨mn, mx, cheapest_and_most_expensive_value range mn mx hmn hmx,
    List.mem_iff_getElem?.mpr ⟨_, hmn⟩, List.mem_iff_getElem?.mpr ⟨_, hmx⟩, hleast, hgreatest⟩

theorem C13_cheapest_and_most_expensive_witness :
    burndown_example ≠ [] ∧
    ∃ mn mx, cheapest_and_most_expensive burndown_example = Outcome.value (mn, mx) ∧
      mn ∈ burndown_example ∧ mx ∈ burndown_example ∧
      (∀ t ∈ burndown_example, mn.cost ≤ t.cost) ∧
      (∀ t ∈ burndown_example, t.cost ≤ mx.cost) :=
  ⟨by decide, C13_cheapest_and_most_expensive burndown_example (by decide)⟩

/-- C14 as stated fails: of three tasks of equal cost 5 (ids 0, 1, 2), the earliest task
of maximum cost is task 0, and `cheapest_and_most_expensive` returns task 2 as the
most expensive. -/
theorem C14_most_expensive_is_not_the_earliest :
    (∀ t ∈ tie_example, t.cost ≤ 5) ∧
    tie_example.find? (fun t => decide (t.cost = 5)) = some (task_costing 0 1 5) ∧
    cheapest_and_most_expensive tie_example
      = Outcome.value (task_costing 0 1 5, task_costing 2 3 5) ∧
    task_costing 2 3 5 ≠ task_costing 0 1 5 := by
  decide

/-- C14, amended: on a non-empty range the cheapest task returned is the earliest task
of minimum cost (every task in front of it costs strictly more), and the most
expensive task returned is the latest task of maximum cost (every task behind it
costs strictly less). -/
theorem C14_cheapest_first_most_expensive_last (range : List task) (h : range ≠ []) :
    ∃ mn mx i j, cheapest_and_most_expensive range = Outcome.value (mn, mx) ∧
      range[i]? = some mn ∧ (∀ t ∈ range, mn.cost ≤ t.cost) ∧
      (∀ (k : Nat) (t : task), k < i → range[k]? = some t → mn.cost < t.cost) ∧
      range[j]? = some mx ∧ (∀ t ∈ range, t.cost ≤ mx.cost) ∧
      (∀ (k : Nat) (t : task), j < k → range[k]? = some t → t.cost < mx.cost) := by
  obtain ⟨mn, hmn, hleast, hfirst⟩ := minmax_element_cost_min range h
  obtain ⟨mx, hmx, hgreatest, hlast⟩ := minmax_element_cost_max range h
  exact ⟨mn, mx, _, _, cheapest_and_most_expensive_value range mn mx hmn hmx,
    hmn, hleast, hfirst, hmx, hgreatest, hlast⟩

theorem C14_cheapest_first_most_expensive_last_witness :
    tie_example ≠ [] ∧
    ∃ mn mx i j, cheapest_and_most_expensive tie_example = Outcome.value (mn, mx) ∧
      tie_example[i]? = some mn ∧ (∀ t ∈ tie_example, mn.cost ≤ t.cost) ∧
      (∀ (k : Nat) (t : task), k < i → tie_example[k]? = some t → mn.cost < t.cost) ∧
      tie_example[j]? = some mx ∧ (∀ t ∈ tie_example, t.cost ≤ mx.cost) ∧
      (∀ (k : Nat) (t : task), j < k → tie_example[k]? = some t → t.cost < mx.cost) :=
  ⟨by decide, C14_cheapest_first_most_expensive_last tie_example (by decide)⟩

/-! ## Average cost -/

/-- Tasks of other priorities leave the running total and the counter as they are. -/
theorem accumulate_other_priorities (range : List task) (priority : Int) (acc : ℚ × Int)
    (h : ∀ t ∈ range, t.priority ≠ priority) :
    accumulate range acc (fun acc t =>
      if t.priority = priority then (acc.1 + t.cost, acc.2 + 1) else acc) = acc := by
  unfold accumulate
  induction range generalizing acc with
  | nil => rfl
  | cons t ts ih =>
    rw [List.foldl_cons, if_neg (h t (List.mem_cons_self _ _))]
    exact ih acc (fun u hu => h u (List.mem_cons_of_mem _ hu))

/-- C15 as stated fails: on the empty range, and on a range where no task has priority
7, `average_cost_of_prio` reports no error; it returns the not-a-number quotient
of the zero total by the zero count. -/
theorem C15_no_error_is_reported :
    average_cost_of_prio [] 1 = Outcome.value fdouble.nan ∧
    average_cost_of_prio [] 1 ≠ Outcome.error ∧
    average_cost_of_prio completion_example 7 = Outcome.value fdouble.nan ∧
    average_cost_of_prio completion_example 7 ≠ Outcome.error := by
  decide

/-- C15, amended: when no task of the range has the priority (the empty range
included), `average_cost_of_prio` makes no check of the count and reports no
error: it returns the quotient of the zero total by the zero count as it is, a
not-a-number value. -/
theorem C15_average_cost_of_prio_no_match (range : List task) (priority : Int)
    (h : ∀ t ∈ range, t.priority ≠ priority) :
    average_cost_of_prio range priority = Outcome.value (double_div 0 0) ∧
    double_div 0 0 = fdouble.nan ∧
    average_cost_of_prio range priority ≠ Outcome.error := by
  have hrun : average_cost_of_prio range priority = Outcome.value (double_div 0 0) := by
    unfold average_cost_of_prio
    simp only [accumulate_other_priorities range priority (0, 0) h]
  refine ⟨hrun, by simp [double_div], ?_⟩
  rw [hrun]
  exact fun hc => Outcome.noConfusion hc

theorem C15_average_cost_of_prio_no_match_witness :
    (∀ t ∈ completion_example, t.priority ≠ 7) ∧
    average_cost_of_prio completion_example 7 = Outcome.value (double_div 0 0) ∧
    double_div 0 0 = fdouble.nan ∧
    average_cost_of_prio completion_example 7 ≠ Outcome.error :=
  ⟨by decide, C15_average_cost_of_prio_no_match completion_example 7 (by decide)⟩

end saxion
